import Mathlib

/-!
Verification of graphgallery/transformers/adj_transformer/normalize_adj.py.

The module normalizes one or more adjacency matrices (sparse scipy matrices
or dense numpy arrays).  We embed both representations shallowly:

* a dense matrix is a row-major list of rows;
* a sparse matrix is a list of stored (row, col, value) triples together
  with a format tag (coo / csr / csc / lil / dia) and its dimension.

Numeric values live in an arbitrary commutative ring: the claims about the
transform are ring identities, so proving them for every commutative ring
covers the idealization of finite floats (witnesses use the integers).
The real-valued power function np.power on nonzero bases is not
expressible over such a ring, so every definition is parametrized by a
function pw standing for it; all theorems hold for every such pw.  The
non-finite IEEE behaviour needed for the zero-degree analysis is modelled
separately by the type FV below.

The format produced by the scipy sparse addition adj + selfloop * sp.eye(n)
is a scipy dispatch detail not recorded in the source under verification,
so it is likewise a parameter addFmt : SpFmt -> SpFmt.
-/

namespace NormAdj

/-- Sparse storage formats of scipy matrices that can reach `normalize`. -/
inductive SpFmt where
  | coo | csr | csc | lil | dia
deriving DecidableEq, Repr

/-- A scipy sparse matrix: dimension (the matrices are square), a format
tag and the list of stored entries (row, col, value). -/
structure SpMat (α : Type) where
  n : Nat
  fmt : SpFmt
  entries : List (Nat × Nat × α)
deriving DecidableEq, Repr

/-- An input/output matrix of `normalize`: a dense numpy array (row-major
rows) or a scipy sparse matrix. -/
inductive AdjMat (α : Type) where
  | dense (n : Nat) (rows : List (List α))
  | sparse (s : SpMat α)
deriving DecidableEq, Repr

/-- Result of the top-level `normalize_adj`: a bare matrix when a single
matrix was supplied, otherwise the tuple of results. -/
inductive NormOut (α : Type) where
  | one (m : AdjMat α)
  | tup (ms : List (AdjMat α))
deriving DecidableEq, Repr

/-- The `rate` argument: a scalar (possibly None) or a python sequence of
scalars (possibly containing None). -/
inductive Rate (α : Type) where
  | scalar (r : Option α)
  | seq (rs : List (Option α))
deriving DecidableEq, Repr

/-- Python test `r is None`: true only for the bare scalar None. -/
def Rate.rIsNone {α : Type} : Rate α → Bool
  | .scalar none => true
  | _ => false

/-- Whether a normalize_adj result is the tuple form. -/
def NormOut.tupQ {α : Type} : NormOut α → Bool
  | .tup _ => true
  | .one _ => false

variable {α : Type} [CommRing α] [DecidableEq α]

/-- Entry read of a dense row-major matrix, defaulting to 0 out of range. -/
def getE (rows : List (List α)) (i j : Nat) : α :=
  (rows.getD i []).getD j 0

/-- Build the n x n row-major list of rows from an entry function. -/
def mkRows (n : Nat) (f : Nat → Nat → α) : List (List α) :=
  (List.range n).map fun i => (List.range n).map fun j => f i j

/-- Dense embedding of `adj + selfloop * sp.eye(adj.shape[0])` for a dense
input (numpy adds the dense identity entrywise). -/
def denseAug (selfloop : α) (n : Nat) (rows : List (List α)) : List (List α) :=
  mkRows n fun i j => getE rows i j + selfloop * (if i = j then 1 else 0)

/-- Row sum of a dense matrix, the embedding of `adj.sum(1).A1` entry i. -/
def rowSumE (n : Nat) (rows : List (List α)) (i : Nat) : α :=
  ∑ j ∈ Finset.range n, getE rows i j

/-- Matrix product entry (dot of row i of A with column j of B). -/
def matmulE (n : Nat) (A B : List (List α)) (i j : Nat) : α :=
  ∑ k ∈ Finset.range n, getE A i k * getE B k j

/-- Dense n x n matrix product. -/
def matMulL (n : Nat) (A B : List (List α)) : List (List α) :=
  mkRows n (matmulE n A B)

/-- Dense form of `sp.diags(dp)` restricted to the n x n case in which the
product is defined. -/
def diagRows (n : Nat) (dp : List α) : List (List α) :=
  mkRows n fun i j => if i = j then dp.getD i 0 else 0

/-- Sum of the stored values at position (i, j) (scipy may store duplicate
coordinates in coo; its canonical formats sum them). -/
def entryValSum (es : List (Nat × Nat × α)) (i j : Nat) : α :=
  ((es.filter fun e => e.1 == i && e.2.1 == j).map fun e => e.2.2).sum

/-- Embedding of `adj.sum(1).A1` entry i for a sparse matrix: scipy sums
the stored entries of row i. -/
def spDeg (es : List (Nat × Nat × α)) (i : Nat) : α :=
  ((es.filter fun e => e.1 == i).map fun e => e.2.2).sum

/-- Row r of a canonical sparse pattern: stored positions selected by g,
values given by f, columns in increasing order (scipy canonical order). -/
def rowBlock (n : Nat) (g : Nat → Nat → Bool) (f : Nat → Nat → α) (r : Nat) :
    List (Nat × Nat × α) :=
  (List.range n).filterMap fun j => if g r j then some (r, j, f r j) else none

/-- Canonical (row-major sorted, duplicate-free) sparse entry list with
pattern g and values f. -/
def mkSparse (n : Nat) (g : Nat → Nat → Bool) (f : Nat → Nat → α) :
    List (Nat × Nat × α) :=
  (List.range n).flatMap (rowBlock n g f)

/-- Embedding of `adj + selfloop * sp.eye(adj.shape[0])` for a sparse
input: scipy returns a canonical matrix storing exactly the positions
whose summed value is nonzero — dia.tocoo masks out zero data (so
selfloop = 0 contributes nothing) and csr_plus_csr skips exact-zero
results, so zero entries are pruned from the stored pattern.  The
resulting format is scipy addition dispatch, abstracted as addFmt. -/
def spAug (addFmt : SpFmt → SpFmt) (selfloop : α) (s : SpMat α) : SpMat α :=
  { n := s.n
    fmt := addFmt s.fmt
    entries := mkSparse s.n
      (fun i j => decide
        (entryValSum s.entries i j + (if i = j then selfloop else 0) ≠ 0))
      (fun i j => entryValSum s.entries i j + (if i = j then selfloop else 0)) }

/-- Embedding of the 1-D numpy broadcast `np.power(deg, qs)` for vectors:
defined when the lengths agree or either is 1, elementwise pw otherwise
none (numpy raises a broadcast ValueError). -/
def bcastPow (pw : α → α → α) (deg qs : List α) : Option (List α) :=
  if qs.length = deg.length then some (List.zipWith pw deg qs)
  else if qs.length = 1 then some (deg.map fun d => pw d (qs.getD 0 0))
  else if deg.length = 1 then some (qs.map fun q => pw (deg.getD 0 0) q)
  else none

/-- The exponent list handed to np.power: a scalar behaves as a length-1
vector; a sequence containing None makes the power ill-typed (none). -/
def ratesOf : Rate α → Option (List α)
  | .scalar (some q) => some [q]
  | .scalar none => none
  | .seq rs => if rs.all Option.isSome then some (rs.map fun o => o.getD 0) else none

/-- Embedding of the inner function `normalize(adj, r)` of normalize_adj.
The input is augmented with selfloop * I; with r None the augmented matrix
is returned.  Otherwise degree = row sums, degree_power = np.power of it,
and: a sparse matrix is converted to coo, its stored data scaled as
degree_power[row] * v * degree_power[col] and converted to csr; a dense
matrix is multiplied as sp.diags(degree_power) @ adj @ sp.diags(degree_power)
(defined only when the diagonal has length n) and densified. -/
def normalize (pw : α → α → α) (addFmt : SpFmt → SpFmt) (selfloop : α)
    (r : Rate α) (M : AdjMat α) : Option (AdjMat α) :=
  match M with
  | .dense n rows =>
    if r.rIsNone then some (.dense n (denseAug selfloop n rows))
    else (ratesOf r).bind fun qs =>
      (bcastPow pw
          ((List.range n).map (rowSumE n (denseAug selfloop n rows))) qs).bind
        fun dp =>
          if dp.length = n then
            some (.dense n (matMulL n
              (matMulL n (diagRows n dp) (denseAug selfloop n rows))
              (diagRows n dp)))
          else none
  | .sparse s =>
    if r.rIsNone then some (.sparse (spAug addFmt selfloop s))
    else (ratesOf r).bind fun qs =>
      (bcastPow pw
          ((List.range s.n).map (spDeg (spAug addFmt selfloop s).entries)) qs).bind
        fun dp =>
          some (.sparse
            { n := s.n
              fmt := .csr
              entries := (spAug addFmt selfloop s).entries.map fun e =>
                (e.1, e.2.1, dp.getD e.1 0 * e.2.2 * dp.getD e.2.1 0) })

/-- Modelled from the spec: the broadcasting utility `repeat` from
graphgallery.utils.shape, whose source is not part of the file under
verification.  Per the spec, a scalar rate is replicated k times; a
sequence must have length k (used positionally) or length 1 (broadcast);
any other length is an error. -/
def repeatRate : Rate α → Nat → Option (List (Option α))
  | .scalar q, k => some (List.replicate k q)
  | .seq rs, k =>
    if rs.length = k then some rs
    else if rs.length = 1 then some (List.replicate k (rs.getD 0 none))
    else none

/-- Collect a list of optional results, failing if any failed. -/
def seqOption : List (Option (AdjMat α)) → Option (List (AdjMat α))
  | [] => some []
  | none :: _ => none
  | some x :: t => (seqOption t).map (x :: ·)

/-- Placeholder matrix used for (never-reached) out-of-range list reads. -/
def dfltMat : AdjMat α := .dense 0 []

/-- Embedding of the top-level `normalize_adj(*adj_matrics, rate, selfloop)`:
one matrix is normalized with the rate argument passed through verbatim and
returned bare; otherwise the rate is broadcast by `repeat` to one scalar per
matrix and the tuple of per-matrix results is returned. -/
def normalize_adj (pw : α → α → α) (addFmt : SpFmt → SpFmt)
    (mats : List (AdjMat α)) (r : Rate α) (selfloop : α) : Option (NormOut α) :=
  if mats.length = 1 then
    (normalize pw addFmt selfloop r (mats.getD 0 dfltMat)).map .one
  else
    (repeatRate r mats.length).bind fun rs =>
      (seqOption (List.zipWith
        (fun M q => normalize pw addFmt selfloop (.scalar q) M) mats rs)).map .tup

/-- Semantic (i, j) entry of a matrix of either representation. -/
def entryOf (M : AdjMat α) (i j : Nat) : α :=
  match M with
  | .dense _ rows => getE rows i j
  | .sparse s => entryValSum s.entries i j

/-- Dimension of a matrix of either representation. -/
def dimOf {α : Type} : AdjMat α → Nat
  | .dense n _ => n
  | .sparse s => s.n

/-- Representation family: true for sparse. -/
def sparseFam {α : Type} : AdjMat α → Bool
  | .dense _ _ => false
  | .sparse _ => true

/-- Well-formedness: a dense matrix is an n x n list of lists, a sparse
matrix stores only in-range coordinates. -/
def WfMat {α : Type} : AdjMat α → Prop
  | .dense n rows => rows.length = n ∧ ∀ row ∈ rows, row.length = n
  | .sparse s => ∀ e ∈ s.entries, e.1 < s.n ∧ e.2.1 < s.n

/-- Semantic entry of the self-loop augmented matrix. -/
def augEntry (selfloop : α) (M : AdjMat α) (i j : Nat) : α :=
  entryOf M i j + (if i = j then selfloop else 0)

/-- Semantic degree: sum over j of the augmented entries of row i. -/
def degSem (selfloop : α) (M : AdjMat α) (i : Nat) : α :=
  ∑ j ∈ Finset.range (dimOf M), augEntry selfloop M i j

/-- The degree vector computed inside `normalize` (row sums of the stored
representation of the augmented matrix), as a list. -/
def degListOf (addFmt : SpFmt → SpFmt) (selfloop : α) :
    AdjMat α → List α
  | .dense n rows => (List.range n).map (rowSumE n (denseAug selfloop n rows))
  | .sparse s => (List.range s.n).map (spDeg (spAug addFmt selfloop s).entries)

/-- The self-loop augmented matrix adj + selfloop * I, in the
representation of the input. -/
def augM (addFmt : SpFmt → SpFmt) (sl : α) : AdjMat α → AdjMat α
  | .dense n rows => .dense n (denseAug sl n rows)
  | .sparse s => .sparse (spAug addFmt sl s)

/-- Sparse storage format of a matrix (none for a dense array). -/
def fmtOf {α : Type} : AdjMat α → Option SpFmt
  | .dense _ _ => none
  | .sparse s => some s.fmt

/-- IEEE-754-style value at the float level: finite, one of the two
infinities, or nan.  Only what the zero-degree analysis needs is modelled:
multiplication and the special values of np.power. -/
inductive FV (κ : Type) where
  | fin (q : κ)
  | pinf
  | ninf
  | nan
deriving DecidableEq, Repr

/-- Whether a float-level value is finite. -/
def FV.finite {κ : Type} : FV κ → Bool
  | .fin _ => true
  | _ => false

section FloatLevel

variable {κ : Type} [LinearOrderedCommRing κ]

/-- IEEE multiplication on the modelled values: nan is absorbing,
infinity times zero is nan, otherwise infinities follow the sign rules. -/
def FV.mul : FV κ → FV κ → FV κ
  | .nan, _ => .nan
  | _, .nan => .nan
  | .fin a, .fin b => .fin (a * b)
  | .fin a, .pinf => if 0 < a then .pinf else if a < 0 then .ninf else .nan
  | .fin a, .ninf => if 0 < a then .ninf else if a < 0 then .pinf else .nan
  | .pinf, .fin b => if 0 < b then .pinf else if b < 0 then .ninf else .nan
  | .ninf, .fin b => if 0 < b then .ninf else if b < 0 then .pinf else .nan
  | .pinf, .pinf => .pinf
  | .pinf, .ninf => .ninf
  | .ninf, .pinf => .ninf
  | .ninf, .ninf => .pinf

/-- Float-level np.power on a finite base: np.power(0., r) is inf for
r < 0 (with a RuntimeWarning, not an exception), 1. for r = 0 and 0. for
r > 0; its value on nonzero bases is not expressible in the ring and is
abstracted by the parameter pwn. -/
def npowF (pwn : κ → κ → FV κ) (r d : κ) : FV κ :=
  if d = 0 then (if r < 0 then .pinf else if r = 0 then .fin 1 else .fin 0)
  else pwn d r

/-- Float-level stored data of the sparse branch of `normalize` with a
finite scalar rate: each stored entry (row, col, v) of the augmented
matrix becomes degree_power[row] * v * degree_power[col], with
degree_power = np.power(degree, r) (the row indices of the augmented
entries are always within range, so indexing the degree-power array is
plain application). -/
def spScaledFV (pwn : κ → κ → FV κ) (addFmt : SpFmt → SpFmt) (sl r : κ)
    (s : SpMat κ) : List (Nat × Nat × FV κ) :=
  (spAug addFmt sl s).entries.map fun e =>
    (e.1, e.2.1,
      ((npowF pwn r (spDeg (spAug addFmt sl s).entries e.1)).mul
          (.fin e.2.2)).mul
        (npowF pwn r (spDeg (spAug addFmt sl s).entries e.2.1)))

/-- Float-level entry (i, j) of the dense branch with a finite scalar
rate: sp.diags(degree_power) is a sparse matrix whose only stored entries
are the diagonal, so the two products compute exactly
degree_power[i] * B[i][j] * degree_power[j], with no further addends. -/
def denseScaledFV (pwn : κ → κ → FV κ) (sl r : κ) (n : Nat)
    (rows : List (List κ)) (i j : Nat) : FV κ :=
  ((npowF pwn r (rowSumE n (denseAug sl n rows) i)).mul
      (.fin (getE (denseAug sl n rows) i j))).mul
    (npowF pwn r (rowSumE n (denseAug sl n rows) j))

end FloatLevel

/-- Heap model of one `normalize` call: matrices live at addresses (list
indices).  The scipy addition `adj + selfloop * sp.eye(n)` allocates the
augmented matrix; on the sparse path `tocoo(copy=False)` aliases a coo
matrix and otherwise allocates a coo view, the assignment `adj.data = ...`
mutates the object at the address `tocoo` returned, and `tocsr(copy=False)`
from coo allocates the result; on the dense path the products and `.A`
allocate.  Returns the heap after the call and the address of the result
(on the rate-None path the result address is that of the augmented
matrix). -/
def normalizeHeap (pw : α → α → α) (addFmt : SpFmt → SpFmt) (sl : α)
    (r : Rate α) (h : List (AdjMat α)) (a : Nat) : List (AdjMat α) × Nat :=
  match h.getD a dfltMat with
  | .dense n rows =>
    if r.rIsNone then (h ++ [augM addFmt sl (.dense n rows)], h.length)
    else
      match normalize pw addFmt sl r (.dense n rows) with
      | none => (h ++ [augM addFmt sl (.dense n rows)], h.length)
      | some R => (h ++ [augM addFmt sl (.dense n rows)] ++ [R], h.length + 1)
  | .sparse s =>
    if r.rIsNone then (h ++ [augM addFmt sl (.sparse s)], h.length)
    else
      match normalize pw addFmt sl r (.sparse s) with
      | none => (h ++ [augM addFmt sl (.sparse s)], h.length)
      | some R =>
        match R with
        | .dense _ _ => (h ++ [augM addFmt sl (.sparse s)], h.length)
        | .sparse t =>
          if (spAug addFmt sl s).fmt = .coo then
            -- tocoo aliases the augmented object; the data assignment
            -- mutates it in place, then tocsr allocates the result
            (((h ++ [augM addFmt sl (.sparse s)]).set h.length
                (AdjMat.sparse { n := s.n, fmt := .coo, entries := t.entries }))
              ++ [AdjMat.sparse t], h.length + 1)
          else
            -- tocoo allocates a coo view, the data assignment mutates
            -- that view, then tocsr allocates the result
            (((h ++ [augM addFmt sl (.sparse s)]
                ++ [AdjMat.sparse { n := s.n, fmt := .coo,
                                    entries := (spAug addFmt sl s).entries }]).set
                (h.length + 1)
                (AdjMat.sparse { n := s.n, fmt := .coo, entries := t.entries }))
              ++ [AdjMat.sparse t], h.length + 2)

/-- Concrete power stand-in used by the witnesses (all theorems hold for
every pw). -/
def pwW : ℤ → ℤ → ℤ := fun d _ => d

/-- Concrete sparse-addition format stand-in used by the witnesses. -/
def afW : SpFmt → SpFmt := fun f => f

/-- Concrete float-level power stand-in used by the witnesses. -/
def pwnW : ℤ → ℤ → FV ℤ := fun _ _ => .fin 1

section ListHelpers

variable {β γ : Type}

theorem getD_map_lt (f : β → γ) (l : List β) (i : Nat) (d : γ) (d' : β)
    (h : i < l.length) : (l.map f).getD i d = f (l.getD i d') := by
  rw [List.getD_eq_getElem?_getD, List.getD_eq_getElem?_getD, List.getElem?_map,
    List.getElem?_eq_getElem h]
  rfl

theorem getD_range_lt {n i : Nat} (d : Nat) (h : i < n) :
    (List.range n).getD i d = i := by
  rw [List.getD_eq_getElem?_getD, List.getElem?_range h]
  rfl

theorem getD_zipWith {δ : Type} (f : β → γ → δ) (l1 : List β) (l2 : List γ)
    (i : Nat) (d : δ) (d1 : β) (d2 : γ)
    (h1 : i < l1.length) (h2 : i < l2.length) :
    (List.zipWith f l1 l2).getD i d = f (l1.getD i d1) (l2.getD i d2) := by
  rw [List.getD_eq_getElem?_getD, List.getD_eq_getElem?_getD,
    List.getD_eq_getElem?_getD, List.getElem?_zipWith,
    List.getElem?_eq_getElem h1, List.getElem?_eq_getElem h2]
  rfl

end ListHelpers

theorem listSum_range_eq (n : Nat) (F : Nat → α) :
    ((List.range n).map F).sum = ∑ j ∈ Finset.range n, F j := by
  induction n with
  | zero => simp
  | succ m ih => rw [List.range_succ, Finset.sum_range_succ]; simp [ih]

theorem getE_mkRows (n : Nat) (f : Nat → Nat → α) {i j : Nat}
    (hi : i < n) (hj : j < n) : getE (mkRows n f) i j = f i j := by
  unfold getE mkRows
  rw [getD_map_lt _ _ _ _ 0 (by simpa using hi), getD_range_lt 0 hi,
    getD_map_lt _ _ _ _ 0 (by simpa using hj), getD_range_lt 0 hj]

theorem matmulE_diag_left (n : Nat) (dp : List α) (B : List (List α))
    {i : Nat} (j : Nat) (hi : i < n) :
    matmulE n (diagRows n dp) B i j = dp.getD i 0 * getE B i j := by
  unfold matmulE
  have hcong : ∀ k ∈ Finset.range n,
      getE (diagRows n dp) i k * getE B k j
        = if i = k then dp.getD i 0 * getE B k j else 0 := by
    intro k hk
    rw [Finset.mem_range] at hk
    rw [diagRows, getE_mkRows n _ hi hk]
    split <;> simp
  rw [Finset.sum_congr rfl hcong, Finset.sum_ite_eq]
  simp [Finset.mem_range, hi]

theorem matmulE_diag_right (n : Nat) (dp : List α) (A : List (List α))
    (i : Nat) {j : Nat} (hj : j < n) :
    matmulE n A (diagRows n dp) i j = getE A i j * dp.getD j 0 := by
  unfold matmulE
  have hcong : ∀ k ∈ Finset.range n,
      getE A i k * getE (diagRows n dp) k j
        = if k = j then getE A i k * dp.getD k 0 else 0 := by
    intro k hk
    rw [Finset.mem_range] at hk
    rw [diagRows, getE_mkRows n _ hk hj]
    split <;> simp
  rw [Finset.sum_congr rfl hcong, Finset.sum_ite_eq']
  simp [Finset.mem_range, hj]

theorem dense_scaled_entry (n : Nat) (dp : List α) (B : List (List α))
    {i j : Nat} (hi : i < n) (hj : j < n) :
    getE (matMulL n (matMulL n (diagRows n dp) B) (diagRows n dp)) i j
      = dp.getD i 0 * getE B i j * dp.getD j 0 := by
  rw [matMulL, getE_mkRows n _ hi hj, matmulE_diag_right n dp _ i hj,
    matMulL, getE_mkRows n _ hi hj, matmulE_diag_left n dp B j hi]

theorem aug_entry_dense (sl : α) (n : Nat) (rows : List (List α)) {i j : Nat}
    (hi : i < n) (hj : j < n) :
    getE (denseAug sl n rows) i j = augEntry sl (.dense n rows) i j := by
  rw [denseAug, getE_mkRows n _ hi hj, augEntry, entryOf]
  split <;> simp

theorem deg_dense (sl : α) (n : Nat) (rows : List (List α)) {i : Nat}
    (hi : i < n) :
    rowSumE n (denseAug sl n rows) i = degSem sl (.dense n rows) i := by
  rw [rowSumE, degSem]
  simp only [dimOf]
  exact Finset.sum_congr rfl fun j hj =>
    aug_entry_dense sl n rows hi (Finset.mem_range.mp hj)

theorem entryValSum_nil (i j : Nat) : entryValSum ([] : List (Nat × Nat × α)) i j = 0 := rfl

theorem entryValSum_cons (e : Nat × Nat × α) (es : List (Nat × Nat × α)) (i j : Nat) :
    entryValSum (e :: es) i j
      = (if e.1 = i ∧ e.2.1 = j then e.2.2 else 0) + entryValSum es i j := by
  unfold entryValSum
  rw [List.filter_cons]
  by_cases h : e.1 = i ∧ e.2.1 = j
  · have hb : (e.1 == i && e.2.1 == j) = true := by
      simp [Bool.and_eq_true, beq_iff_eq, h.1, h.2]
    simp [hb, h]
  · have hb : (e.1 == i && e.2.1 == j) = false := by
      rcases not_and_or.mp h with h1 | h1 <;> simp [Bool.and_eq_false_iff, beq_eq_false_iff_ne, h1]
    simp [hb, h]

theorem entryValSum_append (l1 l2 : List (Nat × Nat × α)) (i j : Nat) :
    entryValSum (l1 ++ l2) i j = entryValSum l1 i j + entryValSum l2 i j := by
  unfold entryValSum
  rw [List.filter_append, List.map_append, List.sum_append]

theorem spDeg_cons (e : Nat × Nat × α) (es : List (Nat × Nat × α)) (i : Nat) :
    spDeg (e :: es) i = (if e.1 = i then e.2.2 else 0) + spDeg es i := by
  unfold spDeg
  rw [List.filter_cons]
  by_cases h : e.1 = i
  · simp [h]
  · simp [h, beq_eq_false_iff_ne.mpr h]

theorem spDeg_append (l1 l2 : List (Nat × Nat × α)) (i : Nat) :
    spDeg (l1 ++ l2) i = spDeg l1 i + spDeg l2 i := by
  unfold spDeg
  rw [List.filter_append, List.map_append, List.sum_append]

theorem entryValSum_filterMapRow (g : Nat → Nat → Bool) (f : Nat → Nat → α)
    (r : Nat) (l : List Nat) (hnd : l.Nodup) (i j : Nat) :
    entryValSum (l.filterMap fun c => if g r c then some (r, c, f r c) else none) i j
      = if i = r ∧ j ∈ l ∧ g r j then f r j else 0 := by
  induction l with
  | nil => simp [entryValSum_nil]
  | cons c t ih =>
    have hnd' : t.Nodup := (List.nodup_cons.mp hnd).2
    have hc : c ∉ t := (List.nodup_cons.mp hnd).1
    rw [List.filterMap_cons]
    by_cases hg : g r c
    · rw [if_pos hg, entryValSum_cons, ih hnd']
      by_cases hij : i = r ∧ j = c
      · obtain ⟨hir, hjc⟩ := hij
        subst hir; subst hjc
        simp [hg, hc]
      · have h1 : ¬(r = i ∧ c = j) := fun ⟨a, b⟩ => hij ⟨a.symm, b.symm⟩
        rw [if_neg h1, zero_add]
        by_cases hir : i = r
        · subst hir
          have hjc : j ≠ c := fun hj => hij ⟨rfl, hj⟩
          simp [List.mem_cons, hjc]
        · simp [hir]
    · rw [if_neg hg, ih hnd']
      by_cases hjc : j = c
      · subst hjc
        simp [hg]
      · simp [List.mem_cons, hjc]

theorem entryValSum_rowBlock (n : Nat) (g : Nat → Nat → Bool) (f : Nat → Nat → α)
    (r i j : Nat) :
    entryValSum (rowBlock n g f r) i j
      = if i = r ∧ j < n ∧ g r j then f r j else 0 := by
  rw [rowBlock, entryValSum_filterMapRow g f r _ (List.nodup_range _) i j]
  simp [List.mem_range]

theorem entryValSum_mkSparse (n : Nat) (g : Nat → Nat → Bool) (f : Nat → Nat → α)
    (i j : Nat) :
    entryValSum (mkSparse n g f) i j
      = if i < n ∧ j < n ∧ g i j then f i j else 0 := by
  rw [mkSparse]
  have main : ∀ l : List Nat, l.Nodup →
      entryValSum (l.flatMap (rowBlock n g f)) i j
        = if i ∈ l ∧ j < n ∧ g i j then f i j else 0 := by
    intro l hnd
    induction l with
    | nil => simp [entryValSum_nil]
    | cons r t ih =>
      have hnd' : t.Nodup := (List.nodup_cons.mp hnd).2
      have hr : r ∉ t := (List.nodup_cons.mp hnd).1
      rw [List.flatMap_cons, entryValSum_append, entryValSum_rowBlock, ih hnd']
      by_cases hir : i = r
      · subst hir
        have : ¬(i ∈ t ∧ j < n ∧ g i j) := fun ⟨hm, _, _⟩ => hr hm
        rw [if_neg this, add_zero]
        simp [List.mem_cons]
      · rw [if_neg (fun h => hir h.1), zero_add]
        simp [List.mem_cons, hir]
  rw [main (List.range n) (List.nodup_range _)]
  simp [List.mem_range]

theorem spDeg_rowBlock (n : Nat) (g : Nat → Nat → Bool) (f : Nat → Nat → α)
    (r i : Nat) :
    spDeg (rowBlock n g f r) i
      = if i = r then ((List.range n).map fun j => if g r j then f r j else 0).sum
        else 0 := by
  rw [rowBlock]
  have main : ∀ l : List Nat,
      spDeg (l.filterMap fun c => if g r c then some (r, c, f r c) else none) i
        = if i = r then (l.map fun j => if g r j then f r j else 0).sum else 0 := by
    intro l
    induction l with
    | nil => cases Decidable.em (i = r) <;> simp [spDeg, *]
    | cons c t ih =>
      rw [List.filterMap_cons]
      by_cases hg : g r c
      · rw [if_pos hg, spDeg_cons, ih]
        by_cases hir : i = r
        · subst hir; simp [hg]
        · have : r ≠ i := fun h => hir h.symm
          simp [hir, this]
      · rw [if_neg hg, ih]
        by_cases hir : i = r <;> simp [hir, hg]
  exact main (List.range n)

theorem spDeg_mkSparse (n : Nat) (g : Nat → Nat → Bool) (f : Nat → Nat → α)
    (i : Nat) (hi : i < n) :
    spDeg (mkSparse n g f) i
      = ∑ j ∈ Finset.range n, if g i j then f i j else 0 := by
  rw [mkSparse]
  have main : ∀ l : List Nat, l.Nodup →
      spDeg (l.flatMap (rowBlock n g f)) i
        = if i ∈ l then ((List.range n).map fun j => if g i j then f i j else 0).sum
          else 0 := by
    intro l hnd
    induction l with
    | nil => simp [spDeg]
    | cons r t ih =>
      have hnd' : t.Nodup := (List.nodup_cons.mp hnd).2
      have hr : r ∉ t := (List.nodup_cons.mp hnd).1
      rw [List.flatMap_cons, spDeg_append, spDeg_rowBlock, ih hnd']
      by_cases hir : i = r
      · subst hir
        rw [if_pos rfl, if_neg (fun h => hr h), add_zero, if_pos (List.mem_cons_self _ _)]
      · rw [if_neg hir]
        simp [List.mem_cons, hir]
  rw [main (List.range n) (List.nodup_range _), if_pos (List.mem_range.mpr hi),
    listSum_range_eq]

theorem entryValSum_map_scale (dp : Nat → α) (l : List (Nat × Nat × α)) (i j : Nat) :
    entryValSum (l.map fun e => (e.1, e.2.1, dp e.1 * e.2.2 * dp e.2.1)) i j
      = dp i * entryValSum l i j * dp j := by
  induction l with
  | nil => simp [entryValSum_nil]
  | cons e t ih =>
    rw [List.map_cons, entryValSum_cons, entryValSum_cons, ih]
    by_cases h : e.1 = i ∧ e.2.1 = j
    · obtain ⟨h1, h2⟩ := h
      simp only [h1, h2, and_self, if_pos]
      ring
    · simp only [h, if_false]
      ring

theorem mem_mkSparse_bounds {n : Nat} {g : Nat → Nat → Bool} {f : Nat → Nat → α}
    {e : Nat × Nat × α} (h : e ∈ mkSparse n g f) : e.1 < n ∧ e.2.1 < n := by
  rw [mkSparse, List.mem_flatMap] at h
  obtain ⟨r, hr, he⟩ := h
  rw [rowBlock, List.mem_filterMap] at he
  obtain ⟨c, hc, he⟩ := he
  split at he
  · cases Option.some.inj he
    exact ⟨List.mem_range.mp hr, List.mem_range.mp hc⟩
  · cases he

theorem aug_pointwise (addFmt : SpFmt → SpFmt) (sl : α) (s : SpMat α) (i j : Nat) :
    (if (decide (entryValSum s.entries i j + (if i = j then sl else 0) ≠ 0)) = true
      then entryValSum s.entries i j + (if i = j then sl else 0) else 0)
      = augEntry sl (.sparse s) i j := by
  rw [augEntry, entryOf]
  by_cases h : entryValSum s.entries i j + (if i = j then sl else 0) ≠ 0
  · rw [if_pos (by simpa using h)]
  · rw [if_neg (by simpa using h)]
    exact (not_not.mp h).symm

theorem aug_entry_sparse (addFmt : SpFmt → SpFmt) (sl : α) (s : SpMat α)
    {i j : Nat} (hi : i < s.n) (hj : j < s.n) :
    entryValSum (spAug addFmt sl s).entries i j = augEntry sl (.sparse s) i j := by
  simp only [spAug]
  rw [entryValSum_mkSparse, ← aug_pointwise addFmt sl s i j]
  by_cases hb : (decide
      (entryValSum s.entries i j + (if i = j then sl else 0) ≠ 0)) = true
  · rw [if_pos ⟨hi, hj, hb⟩, if_pos hb]
  · rw [if_neg (fun hx => hb hx.2.2), if_neg hb]

theorem deg_sparse (addFmt : SpFmt → SpFmt) (sl : α) (s : SpMat α) {i : Nat}
    (hi : i < s.n) :
    spDeg (spAug addFmt sl s).entries i = degSem sl (.sparse s) i := by
  simp only [spAug]
  rw [spDeg_mkSparse _ _ _ i hi, degSem]
  simp only [dimOf]
  exact Finset.sum_congr rfl fun j hj => aug_pointwise addFmt sl s i j

theorem degListOf_length (addFmt : SpFmt → SpFmt) (sl : α) (M : AdjMat α) :
    (degListOf addFmt sl M).length = dimOf M := by
  cases M <;> simp [degListOf, dimOf]

theorem degListOf_getD (addFmt : SpFmt → SpFmt) (sl : α) (M : AdjMat α)
    {i : Nat} (hi : i < dimOf M) :
    (degListOf addFmt sl M).getD i 0 = degSem sl M i := by
  cases M with
  | dense n rows =>
    simp only [dimOf] at hi
    rw [degListOf, getD_map_lt _ _ _ _ 0 (by simpa using hi), getD_range_lt 0 hi,
      deg_dense sl n rows hi]
  | sparse s =>
    simp only [dimOf] at hi
    rw [degListOf, getD_map_lt _ _ _ _ 0 (by simpa using hi), getD_range_lt 0 hi,
      deg_sparse addFmt sl s hi]

theorem bcastPow_single (pw : α → α → α) (deg : List α) (q : α) :
    bcastPow pw deg [q] = some (deg.map fun d => pw d q) := by
  match deg with
  | [] => simp [bcastPow]
  | [d] => simp [bcastPow, List.zipWith]
  | d1 :: d2 :: t => simp [bcastPow]

/-- Shared shape of the conclusion of the scaling branch of `normalize`:
the result exists, keeps dimension and representation family, and every
semantic entry is the augmented entry scaled on both sides by the
degree-power values. -/
theorem normalize_core (pw : α → α → α) (addFmt : SpFmt → SpFmt) (sl : α)
    (rr : Rate α) (M : AdjMat α) (qs dp : List α)
    (hn : rr.rIsNone = false) (hq : ratesOf rr = some qs)
    (hb : bcastPow pw (degListOf addFmt sl M) qs = some dp)
    (hl : dp.length = dimOf M) :
    ∃ R, normalize pw addFmt sl rr M = some R ∧ dimOf R = dimOf M ∧
      sparseFam R = sparseFam M ∧
      ∀ i j, i < dimOf M → j < dimOf M →
        entryOf R i j = dp.getD i 0 * augEntry sl M i j * dp.getD j 0 := by
  cases M with
  | dense n rows =>
    rw [degListOf] at hb
    simp only [dimOf] at hl
    refine ⟨.dense n (matMulL n
      (matMulL n (diagRows n dp) (denseAug sl n rows)) (diagRows n dp)),
      ?_, by simp [dimOf], by simp [sparseFam], ?_⟩
    · rw [normalize, hn]
      simp only [Bool.false_eq_true, if_false]
      rw [hq, Option.some_bind, hb, Option.some_bind, if_pos hl]
    · intro i j hi hj
      simp only [dimOf] at hi hj
      rw [entryOf, dense_scaled_entry n dp _ hi hj, aug_entry_dense sl n rows hi hj]
  | sparse s =>
    rw [degListOf] at hb
    simp only [dimOf] at hl
    refine ⟨.sparse
      { n := s.n
        fmt := .csr
        entries := (spAug addFmt sl s).entries.map fun e =>
          (e.1, e.2.1, dp.getD e.1 0 * e.2.2 * dp.getD e.2.1 0) },
      ?_, by simp [dimOf], by simp [sparseFam], ?_⟩
    · rw [normalize, hn]
      simp only [Bool.false_eq_true, if_false]
      rw [hq, Option.some_bind, hb, Option.some_bind]
    · intro i j hi hj
      simp only [dimOf] at hi hj
      rw [entryOf]
      have := entryValSum_map_scale (fun x => dp.getD x 0) (spAug addFmt sl s).entries i j
      rw [this, aug_entry_sparse addFmt sl s hi hj]

/-- Normalization with a finite scalar rate always succeeds and every
semantic entry of the result is
pw(degree i) * augmented(i, j) * pw(degree j). -/
theorem normalize_scalar (pw : α → α → α) (addFmt : SpFmt → SpFmt) (sl q : α)
    (M : AdjMat α) :
    ∃ R, normalize pw addFmt sl (.scalar (some q)) M = some R ∧
      dimOf R = dimOf M ∧ sparseFam R = sparseFam M ∧
      ∀ i j, i < dimOf M → j < dimOf M →
        entryOf R i j = pw (degSem sl M i) q * augEntry sl M i j
          * pw (degSem sl M j) q := by
  have hb := bcastPow_single pw (degListOf addFmt sl M) q
  have hlen : ((degListOf addFmt sl M).map fun d => pw d q).length = dimOf M := by
    rw [List.length_map, degListOf_length]
  obtain ⟨R, h1, h2, h3, h4⟩ := normalize_core pw addFmt sl (.scalar (some q)) M
    [q] _ rfl rfl hb hlen
  refine ⟨R, h1, h2, h3, ?_⟩
  intro i j hi hj
  rw [h4 i j hi hj,
    getD_map_lt _ _ _ _ 0 (by rw [degListOf_length]; exact hi),
    getD_map_lt _ _ _ _ 0 (by rw [degListOf_length]; exact hj),
    degListOf_getD addFmt sl M hi, degListOf_getD addFmt sl M hj]

/-- With rate None the dense branch returns the augmented matrix. -/
theorem normalize_none_dense (pw : α → α → α) (addFmt : SpFmt → SpFmt) (sl : α)
    (n : Nat) (rows : List (List α)) :
    normalize pw addFmt sl (.scalar none) (.dense n rows)
      = some (.dense n (denseAug sl n rows)) := rfl

/-- With rate None the sparse branch returns the augmented matrix. -/
theorem normalize_none_sparse (pw : α → α → α) (addFmt : SpFmt → SpFmt) (sl : α)
    (s : SpMat α) :
    normalize pw addFmt sl (.scalar none) (.sparse s)
      = some (.sparse (spAug addFmt sl s)) := rfl

/-- Whatever the rate, a successful `normalize` keeps the representation
family of its input. -/
theorem normalize_fam (pw : α → α → α) (addFmt : SpFmt → SpFmt) (sl : α)
    (r : Rate α) (M R : AdjMat α) (h : normalize pw addFmt sl r M = some R) :
    sparseFam R = sparseFam M := by
  cases M with
  | dense n rows =>
    rw [normalize] at h
    by_cases hn : Rate.rIsNone r = true
    · rw [if_pos hn] at h
      cases Option.some.inj h
      rfl
    · rw [if_neg hn] at h
      match hr : ratesOf (α := α) r with
      | none => rw [hr, Option.none_bind] at h; cases h
      | some qs =>
        rw [hr, Option.some_bind] at h
        match hb : bcastPow pw
            ((List.range n).map (rowSumE n (denseAug sl n rows))) qs with
        | none => rw [hb, Option.none_bind] at h; cases h
        | some dp =>
          rw [hb, Option.some_bind] at h
          by_cases hl : dp.length = n
          · rw [if_pos hl] at h
            cases Option.some.inj h
            rfl
          · rw [if_neg hl] at h; cases h
  | sparse s =>
    rw [normalize] at h
    by_cases hn : Rate.rIsNone r = true
    · rw [if_pos hn] at h
      cases Option.some.inj h
      rfl
    · rw [if_neg hn] at h
      match hr : ratesOf (α := α) r with
      | none => rw [hr, Option.none_bind] at h; cases h
      | some qs =>
        rw [hr, Option.some_bind] at h
        match hb : bcastPow pw
            ((List.range s.n).map (spDeg (spAug addFmt sl s).entries)) qs with
        | none => rw [hb, Option.none_bind] at h; cases h
        | some dp =>
          rw [hb, Option.some_bind] at h
          cases Option.some.inj h
          rfl

theorem seqOption_length (l : List (Option (AdjMat α))) (xs : List (AdjMat α))
    (h : seqOption l = some xs) : xs.length = l.length := by
  induction l generalizing xs with
  | nil =>
    rw [seqOption] at h
    cases Option.some.inj h
    rfl
  | cons o t ih =>
    match o with
    | none => rw [seqOption] at h; cases h
    | some x =>
      rw [seqOption] at h
      match hto : seqOption t with
      | none => rw [hto, Option.map_none'] at h; cases h
      | some xs' =>
        rw [hto, Option.map_some'] at h
        cases Option.some.inj h
        simp [ih xs' hto]

theorem seqOption_getD (l : List (Option (AdjMat α))) (xs : List (AdjMat α))
    (h : seqOption l = some xs) (i : Nat) (hi : i < l.length) (d : AdjMat α) :
    l.getD i none = some (xs.getD i d) := by
  induction l generalizing xs i with
  | nil => cases hi
  | cons o t ih =>
    match o with
    | none => rw [seqOption] at h; cases h
    | some x =>
      rw [seqOption] at h
      match hto : seqOption t with
      | none => rw [hto, Option.map_none'] at h; cases h
      | some xs' =>
        rw [hto, Option.map_some'] at h
        cases Option.some.inj h
        match i with
        | 0 => rfl
        | i + 1 => exact ih xs' hto i (Nat.lt_of_succ_lt_succ hi)

theorem repeatRate_length {r : Rate α} {k : Nat} {rs : List (Option α)}
    (h : repeatRate r k = some rs) : rs.length = k := by
  match r with
  | .scalar q =>
    rw [repeatRate] at h
    cases Option.some.inj h
    exact List.length_replicate k q
  | .seq l =>
    rw [repeatRate] at h
    split at h
    · cases Option.some.inj h; assumption
    · split at h
      · cases Option.some.inj h
        exact List.length_replicate _ _
      · cases h

theorem getD_replicate {β : Type} (k i : Nat) (q d : β) (hi : i < k) :
    (List.replicate k q).getD i d = q := by
  rw [List.getD_eq_getElem?_getD, List.getElem?_replicate]
  simp [hi]

/-- A single-matrix call of normalize_adj delegates to `normalize` with the
rate argument untouched and wraps the bare result. -/
theorem normalize_adj_single (pw : α → α → α) (addFmt : SpFmt → SpFmt)
    (sl : α) (r : Rate α) (M : AdjMat α) :
    normalize_adj pw addFmt [M] r sl = (normalize pw addFmt sl r M).map .one := rfl

/-- In a batch call, the i-th output is `normalize` of the i-th input with
the i-th broadcast rate (and the selfloop of the call). -/
theorem normalize_adj_batch_elem (pw : α → α → α) (addFmt : SpFmt → SpFmt)
    (sl : α) (r : Rate α) (mats : List (AdjMat α)) (rs : List (Option α))
    (outs : List (AdjMat α))
    (hone : mats.length ≠ 1)
    (hrep : repeatRate r mats.length = some rs)
    (h : normalize_adj pw addFmt mats r sl = some (.tup outs)) :
    outs.length = mats.length ∧
    ∀ i, i < mats.length → ∀ d dO,
      normalize pw addFmt sl (.scalar (rs.getD i none)) (mats.getD i d)
        = some (outs.getD i dO) := by
  rw [normalize_adj, if_neg hone, hrep, Option.some_bind] at h
  have hrl : rs.length = mats.length := repeatRate_length hrep
  match hs : seqOption (List.zipWith
      (fun M q => normalize pw addFmt sl (.scalar q) M) mats rs) with
  | none => rw [hs] at h; cases h
  | some xs =>
    rw [hs] at h
    cases Option.some.inj h
    have hzl : (List.zipWith
        (fun M q => normalize pw addFmt sl (.scalar q) M) mats rs).length
        = mats.length := by
      rw [List.length_zipWith, hrl, Nat.min_self]
    constructor
    · rw [seqOption_length _ _ hs, hzl]
    · intro i hi d dO
      have hfromseq := seqOption_getD _ _ hs i (by rw [hzl]; exact hi) dO
      rw [getD_zipWith _ mats rs i none d none hi (by rw [hrl]; exact hi)] at hfromseq
      exact hfromseq

/-- A sequence rate whose members are all present denotes its list of
values. -/
theorem ratesOf_seq_map_some (qs : List α) :
    ratesOf (.seq (qs.map some)) = some qs := by
  rw [ratesOf]
  have hall : (qs.map some).all Option.isSome = true := by
    rw [List.all_eq_true]
    intro o ho
    rw [List.mem_map] at ho
    obtain ⟨q, _, hq⟩ := ho
    rw [← hq]
    rfl
  rw [if_pos hall, List.map_map]
  exact congrArg some ((List.map_congr_left fun a _ => rfl).trans (List.map_id qs))

/-- Numpy broadcast of equal-length vectors is elementwise. -/
theorem bcastPow_eq_length (pw : α → α → α) (deg qs : List α)
    (h : qs.length = deg.length) :
    bcastPow pw deg qs = some (List.zipWith pw deg qs) := by
  rw [bcastPow, if_pos h]

/-- Numpy broadcast fails when the lengths disagree and neither is one. -/
theorem bcastPow_mismatch (pw : α → α → α) (deg qs : List α)
    (h1 : qs.length ≠ deg.length) (h2 : qs.length ≠ 1) (h3 : deg.length ≠ 1) :
    bcastPow pw deg qs = none := by
  rw [bcastPow, if_neg h1, if_neg h2, if_neg h3]

theorem getD_mem_of_lt {β : Type} (l : List β) (k : Nat) (d : β)
    (h : k < l.length) : l.getD k d ∈ l := by
  rw [List.getD_eq_getElem?_getD, List.getElem?_eq_getElem h]
  exact List.getElem_mem h

/-- Claim C3: calling normalize_adj with rate None returns exactly the
self-loop-augmented matrix A + selfloop * I (no degree scaling), in the
representation family and dimension of the input, whether A is dense or
sparse: semantically every entry of the result is A[i,j] plus selfloop on
the diagonal. -/
theorem claim3_rate_none_returns_augmented (pw : α → α → α)
    (addFmt : SpFmt → SpFmt) (sl : α) (M : AdjMat α) :
    normalize_adj pw addFmt [M] (.scalar none) sl
      = some (.one (augM addFmt sl M)) ∧
    sparseFam (augM addFmt sl M) = sparseFam M ∧
    dimOf (augM addFmt sl M) = dimOf M ∧
    ∀ i j, i < dimOf M → j < dimOf M →
      entryOf (augM addFmt sl M) i j
        = entryOf M i j + (if i = j then sl else 0) := by
  refine ⟨by cases M <;> rfl, by cases M <;> rfl, by cases M <;> rfl, ?_⟩
  intro i j hi hj
  cases M with
  | dense n rows =>
    simp only [dimOf] at hi hj
    have h := aug_entry_dense sl n rows hi hj
    rw [augEntry] at h
    exact h
  | sparse s =>
    simp only [dimOf] at hi hj
    have h := aug_entry_sparse addFmt sl s hi hj
    rw [augEntry] at h
    exact h

theorem claim3_witness :
    normalize_adj pwW afW [AdjMat.sparse ⟨2, .coo, [(0, 1, (3:ℤ)), (1, 0, 3)]⟩]
        (.scalar none) 2
      = some (.one (augM afW 2 (AdjMat.sparse ⟨2, .coo, [(0, 1, 3), (1, 0, 3)]⟩))) ∧
    entryOf (augM afW 2 (AdjMat.sparse ⟨2, .coo, [(0, 1, (3:ℤ)), (1, 0, 3)]⟩)) 0 1
      = entryOf (AdjMat.sparse ⟨2, .coo, [(0, 1, (3:ℤ)), (1, 0, 3)]⟩) 0 1
        + (if (0:Nat) = 1 then (2:ℤ) else 0) :=
  ⟨(claim3_rate_none_returns_augmented pwW afW 2 _).1,
    (claim3_rate_none_returns_augmented pwW afW 2 _).2.2.2 0 1 (by decide) (by decide)⟩

/-- Claim C6: a scalar rate given with a pair of matrices is broadcast by
replication, so it yields the same result as the explicit two-element rate
sequence.  (The broadcasting `repeat` utility is not part of the source
under src/ and is modelled from the spec.) -/
theorem claim6_scalar_rate_broadcast (pw : α → α → α) (addFmt : SpFmt → SpFmt)
    (sl q : α) (A B : AdjMat α) :
    normalize_adj pw addFmt [A, B] (.scalar (some q)) sl
      = normalize_adj pw addFmt [A, B] (.seq [some q, some q]) sl := rfl

/-- Claim C9: a sparse input with a non-None rate comes back as a csr
matrix whatever its input format was, while with rate None it comes back
as whatever format the sparse addition of selfloop * I produced. -/
theorem claim9_sparse_output_csr (pw : α → α → α) (addFmt : SpFmt → SpFmt)
    (sl : α) (s : SpMat α) :
    (∀ (r : Rate α) (R : AdjMat α), Rate.rIsNone r = false →
        normalize pw addFmt sl r (.sparse s) = some R → fmtOf R = some .csr) ∧
    (∀ (r : Rate α) (R : AdjMat α), Rate.rIsNone r = false →
        normalize_adj pw addFmt [.sparse s] r sl = some (.one R) →
        fmtOf R = some .csr) ∧
    normalize_adj pw addFmt [.sparse s] (.scalar none) sl
      = some (.one (.sparse (spAug addFmt sl s))) ∧
    (spAug addFmt sl s).fmt = addFmt s.fmt := by
  have core : ∀ (r : Rate α) (R : AdjMat α), Rate.rIsNone r = false →
      normalize pw addFmt sl r (.sparse s) = some R → fmtOf R = some .csr := by
    intro r R hn h
    rw [normalize, hn] at h
    simp only [Bool.false_eq_true, if_false] at h
    match hr : ratesOf (α := α) r with
    | none => rw [hr, Option.none_bind] at h; cases h
    | some qs =>
      rw [hr, Option.some_bind] at h
      match hb : bcastPow pw
          ((List.range s.n).map (spDeg (spAug addFmt sl s).entries)) qs with
      | none => rw [hb, Option.none_bind] at h; cases h
      | some dp =>
        rw [hb, Option.some_bind] at h
        cases Option.some.inj h
        rfl
  refine ⟨core, ?_, rfl, rfl⟩
  intro r R hn h
  rw [normalize_adj_single] at h
  match hx : normalize pw addFmt sl r (.sparse s) with
  | none => rw [hx] at h; cases h
  | some R' =>
    rw [hx, Option.map_some'] at h
    obtain rfl : R' = R := NormOut.one.inj (Option.some.inj h)
    exact core r R' hn hx

theorem claim9_witness :
    fmtOf (AdjMat.sparse ⟨1, .csr,
        [(0, 0, (pwW 3 5) * 3 * (pwW 3 5))]⟩) = some SpFmt.csr ∧
    normalize pwW afW 2 (.scalar (some 5))
        (.sparse ⟨1, .lil, [(0, 0, (1:ℤ))]⟩)
      = some (.sparse ⟨1, .csr, [(0, 0, (pwW 3 5) * 3 * (pwW 3 5))]⟩) :=
  ⟨(claim9_sparse_output_csr pwW afW 2 ⟨1, .lil, [(0, 0, (1:ℤ))]⟩).1
      (.scalar (some 5)) _ (by decide) (by decide),
    by decide⟩

theorem normalize_scalarOpt_isSome (pw : α → α → α) (addFmt : SpFmt → SpFmt)
    (sl : α) (q : Option α) (M : AdjMat α) :
    (normalize pw addFmt sl (.scalar q) M).isSome = true := by
  cases q with
  | none =>
    cases M with
    | dense n rows => rw [normalize_none_dense]; rfl
    | sparse s => rw [normalize_none_sparse]; rfl
  | some q =>
    obtain ⟨R, h1, _⟩ := normalize_scalar pw addFmt sl q M
    rw [h1]
    rfl

theorem seqOption_zip_isSome (pw : α → α → α) (addFmt : SpFmt → SpFmt)
    (sl : α) :
    ∀ (mats : List (AdjMat α)) (rs : List (Option α)),
    (seqOption (List.zipWith
      (fun M q => normalize pw addFmt sl (.scalar q) M) mats rs)).isSome
      = true := by
  intro mats
  induction mats with
  | nil => intro rs; rfl
  | cons M t ih =>
    intro rs
    cases rs with
    | nil => rfl
    | cons q rt =>
      rw [List.zipWith_cons_cons]
      have h1 := normalize_scalarOpt_isSome pw addFmt sl q M
      match hx : normalize pw addFmt sl (.scalar q) M with
      | none => rw [hx] at h1; cases h1
      | some x =>
        rw [seqOption]
        have h2 := ih rt
        match hs : seqOption (List.zipWith
            (fun M q => normalize pw addFmt sl (.scalar q) M) t rt) with
        | none => rw [hs] at h2; cases h2
        | some xs => rfl

/-- Claim C4: with exactly one matrix normalize_adj returns the bare
normalized matrix; with two or more it returns the tuple of per-matrix
results, the i-th computed from the i-th input and the i-th broadcast
rate. -/
theorem claim4_single_bare_batch_tuple (pw : α → α → α) (addFmt : SpFmt → SpFmt)
    (sl : α) :
    (∀ (r : Rate α) (A : AdjMat α),
        normalize_adj pw addFmt [A] r sl
          = (normalize pw addFmt sl r A).map .one) ∧
    (∀ (q : Option α) (mats : List (AdjMat α)), mats.length ≠ 1 →
        (normalize_adj pw addFmt mats (.scalar q) sl).isSome = true) ∧
    (∀ (r : Rate α) (mats : List (AdjMat α)) (out : NormOut α),
        2 ≤ mats.length →
        normalize_adj pw addFmt mats r sl = some out →
        NormOut.tupQ out = true) ∧
    (∀ (r : Rate α) (mats : List (AdjMat α)) (rs : List (Option α))
        (outs : List (AdjMat α)), 2 ≤ mats.length →
        repeatRate r mats.length = some rs →
        normalize_adj pw addFmt mats r sl = some (.tup outs) →
        outs.length = mats.length ∧
        ∀ i, i < mats.length → ∀ d dO,
          normalize pw addFmt sl (.scalar (rs.getD i none)) (mats.getD i d)
            = some (outs.getD i dO)) := by
  refine ⟨fun r A => rfl, ?_, ?_,
    fun r mats rs outs h2 hrep h =>
      normalize_adj_batch_elem pw addFmt sl r mats rs outs (by omega) hrep h⟩
  · intro q mats hone
    rw [normalize_adj, if_neg hone]
    rw [show repeatRate (α := α) (.scalar q) mats.length
        = some (List.replicate mats.length q) from rfl, Option.some_bind]
    have h2 := seqOption_zip_isSome pw addFmt sl mats (List.replicate mats.length q)
    match hs : seqOption (List.zipWith
        (fun M q => normalize pw addFmt sl (.scalar q) M) mats
        (List.replicate mats.length q)) with
    | none => rw [hs] at h2; cases h2
    | some xs => rfl
  · intro r mats out h2 h
    rw [normalize_adj, if_neg (by omega)] at h
    match hrep : repeatRate (α := α) r mats.length with
    | none => rw [hrep, Option.none_bind] at h; cases h
    | some rs =>
      rw [hrep, Option.some_bind] at h
      match hs : seqOption (List.zipWith
          (fun M q => normalize pw addFmt sl (.scalar q) M) mats rs) with
      | none => rw [hs, Option.map_none'] at h; cases h
      | some xs =>
        rw [hs, Option.map_some'] at h
        cases Option.some.inj h
        rfl

theorem claim4_witness :
    normalize_adj pwW afW
        [AdjMat.dense 1 [[(2:ℤ)]], AdjMat.dense 1 [[4]]] (.scalar (some 7)) 0
      = some (.tup [AdjMat.dense 1 [[8]], AdjMat.dense 1 [[64]]]) ∧
    normalize pwW afW 0 (.scalar (some 7)) (AdjMat.dense 1 [[(2:ℤ)]])
      = some (AdjMat.dense 1 [[8]]) := by
  refine ⟨by decide, ?_⟩
  have h := (claim4_single_bare_batch_tuple pwW afW 0).2.2.2 (.scalar (some 7))
    [AdjMat.dense 1 [[(2:ℤ)]], AdjMat.dense 1 [[4]]]
    [some 7, some 7] [AdjMat.dense 1 [[8]], AdjMat.dense 1 [[64]]]
    (by decide) (by decide) (by decide)
  exact h.2 0 (by decide) (AdjMat.dense 0 []) (AdjMat.dense 0 [])

/-- Claim C2: every call preserves the representation family (sparse in,
sparse out; dense in, dense out), both for the per-matrix routine and for
single and batch calls of normalize_adj; and on a sparse input with a
finite rate the scaling touches only the stored entries of the augmented
matrix: the k-th stored entry (row, col, v) becomes
(row, col, degree_power[row] * v * degree_power[col]), so the stored
position pattern is unchanged. -/
theorem claim2_representation_preserved (pw : α → α → α)
    (addFmt : SpFmt → SpFmt) (sl : α) :
    (∀ (r : Rate α) (M R : AdjMat α), normalize pw addFmt sl r M = some R →
        sparseFam R = sparseFam M) ∧
    (∀ (r : Rate α) (M : AdjMat α) (R : AdjMat α),
        normalize_adj pw addFmt [M] r sl = some (.one R) →
        sparseFam R = sparseFam M) ∧
    (∀ (r : Rate α) (mats : List (AdjMat α)) (outs : List (AdjMat α)) i,
        2 ≤ mats.length →
        normalize_adj pw addFmt mats r sl = some (.tup outs) →
        i < mats.length → ∀ d,
        sparseFam (outs.getD i d) = sparseFam (mats.getD i d)) ∧
    (∀ (q : α) (s : SpMat α) (R : SpMat α),
        normalize pw addFmt sl (.scalar (some q)) (.sparse s)
          = some (.sparse R) →
        (R.entries.map fun e => (e.1, e.2.1))
            = ((spAug addFmt sl s).entries.map fun e => (e.1, e.2.1)) ∧
        R.entries.length = (spAug addFmt sl s).entries.length ∧
        ∀ k, k < R.entries.length → ∀ dE,
          R.entries.getD k dE
            = ((fun e => (e.1, e.2.1,
                pw (degSem sl (.sparse s) e.1) q * e.2.2
                  * pw (degSem sl (.sparse s) e.2.1) q))
               ((spAug addFmt sl s).entries.getD k dE))) := by
  refine ⟨normalize_fam pw addFmt sl, ?_, ?_, ?_⟩
  · intro r M R h
    rw [normalize_adj_single] at h
    match hx : normalize pw addFmt sl r M with
    | none => rw [hx] at h; cases h
    | some R' =>
      rw [hx, Option.map_some'] at h
      obtain rfl : R' = R := NormOut.one.inj (Option.some.inj h)
      exact normalize_fam pw addFmt sl r M R' hx
  · intro r mats outs i h2 h hi d
    match hrep : repeatRate (α := α) r mats.length with
    | none =>
      rw [normalize_adj, if_neg (by omega), hrep, Option.none_bind] at h
      cases h
    | some rs =>
      obtain ⟨_, helem⟩ := normalize_adj_batch_elem pw addFmt sl r mats rs outs
        (by omega) hrep h
      exact normalize_fam pw addFmt sl _ _ _ (helem i hi d d)
  · intro q s R h
    have hb := bcastPow_single pw
      ((List.range s.n).map (spDeg (spAug addFmt sl s).entries)) q
    rw [normalize] at h
    simp only [Rate.rIsNone, Bool.false_eq_true, if_false] at h
    rw [show ratesOf (α := α) (.scalar (some q)) = some [q] from rfl,
      Option.some_bind, hb, Option.some_bind] at h
    have hR := AdjMat.sparse.inj (Option.some.inj h)
    subst hR
    set dpl := ((List.range s.n).map (spDeg (spAug addFmt sl s).entries)).map
      (fun d => pw d q) with hdpl
    have hlen : dpl.length = s.n := by
      rw [hdpl, List.length_map, List.length_map, List.length_range]
    refine ⟨by rw [List.map_map]; exact List.map_congr_left fun e _ => rfl,
      by rw [List.length_map], ?_⟩
    intro k hk dE
    rw [List.length_map] at hk
    rw [getD_map_lt _ _ _ _ dE hk]
    have hmem := getD_mem_of_lt (spAug addFmt sl s).entries k dE hk
    have hbounds : ((spAug addFmt sl s).entries.getD k dE).1 < s.n ∧
        ((spAug addFmt sl s).entries.getD k dE).2.1 < s.n :=
      mem_mkSparse_bounds hmem
    have hdp : ∀ x, x < s.n → dpl.getD x 0 = pw (degSem sl (.sparse s) x) q := by
      intro x hx
      rw [hdpl, getD_map_lt _ _ _ _ 0
          (by rw [List.length_map, List.length_range]; exact hx),
        getD_map_lt _ _ _ _ 0 (by rw [List.length_range]; exact hx),
        getD_range_lt 0 hx, deg_sparse addFmt sl s hx]
    simp only [hdp _ hbounds.1, hdp _ hbounds.2]

theorem claim2_witness :
    normalize pwW afW 1 (.scalar (some 4))
        (.sparse ⟨2, .coo, [(0, 1, (2:ℤ)), (1, 0, 2)]⟩)
      = some (.sparse ⟨2, .csr, [(0, 0, 9), (0, 1, 18), (1, 0, 18), (1, 1, 9)]⟩) ∧
    sparseFam (AdjMat.sparse (α := ℤ)
        ⟨2, .csr, [(0, 0, 9), (0, 1, 18), (1, 0, 18), (1, 1, 9)]⟩)
      = sparseFam (AdjMat.sparse (α := ℤ) ⟨2, .coo, [(0, 1, 2), (1, 0, 2)]⟩) ∧
    ([(0, 0, (9:ℤ)), (0, 1, 18), (1, 0, 18), (1, 1, 9)].getD 1 (0, 0, 0)
      = ((fun e => (e.1, e.2.1,
          pwW (degSem 1 (.sparse ⟨2, .coo, [(0, 1, (2:ℤ)), (1, 0, 2)]⟩) e.1) 4
            * e.2.2
            * pwW (degSem 1 (.sparse ⟨2, .coo, [(0, 1, (2:ℤ)), (1, 0, 2)]⟩) e.2.1) 4))
         ((spAug afW 1 ⟨2, .coo, [(0, 1, (2:ℤ)), (1, 0, 2)]⟩).entries.getD 1
           (0, 0, 0)))) := by
  refine ⟨by decide, ?_, ?_⟩
  · exact (claim2_representation_preserved pwW afW 1).1 (.scalar (some 4)) _ _
      (by decide)
  · exact ((claim2_representation_preserved pwW afW 1).2.2.2 4
      ⟨2, .coo, [(0, 1, 2), (1, 0, 2)]⟩
      ⟨2, .csr, [(0, 0, 9), (0, 1, 18), (1, 0, 18), (1, 1, 9)]⟩
      (by decide)).2.2 1 (by decide) (0, 0, 0)

/-- Claim C1: for every matrix and finite scalar rate the call succeeds
and every semantic entry of the result is
degree_power[i] * B[i,j] * degree_power[j], where B is the augmented
matrix, degree[i] the sum of row i of B (this is degSem) and
degree_power[i] = degree[i] ** rate; in a batch call each output obeys the
same identity with the one selfloop of the call. -/
theorem claim1_entrywise_scaling (pw : α → α → α) (addFmt : SpFmt → SpFmt)
    (sl q : α) :
    (∀ M : AdjMat α,
      (normalize_adj pw addFmt [M] (.scalar (some q)) sl).isSome = true) ∧
    (∀ (M R : AdjMat α),
      normalize_adj pw addFmt [M] (.scalar (some q)) sl = some (.one R) →
      dimOf R = dimOf M ∧
      ∀ i j, i < dimOf M → j < dimOf M →
        entryOf R i j
          = pw (degSem sl M i) q * augEntry sl M i j * pw (degSem sl M j) q) ∧
    (∀ (mats outs : List (AdjMat α)) (i : Nat) (d dO : AdjMat α),
      2 ≤ mats.length →
      normalize_adj pw addFmt mats (.scalar (some q)) sl = some (.tup outs) →
      i < mats.length →
      ∀ i2 j2, i2 < dimOf (mats.getD i d) → j2 < dimOf (mats.getD i d) →
        entryOf (outs.getD i dO) i2 j2
          = pw (degSem sl (mats.getD i d) i2) q
            * augEntry sl (mats.getD i d) i2 j2
            * pw (degSem sl (mats.getD i d) j2) q) := by
  have hsing : ∀ (M R : AdjMat α),
      normalize pw addFmt sl (.scalar (some q)) M = some R →
      dimOf R = dimOf M ∧
      ∀ i j, i < dimOf M → j < dimOf M →
        entryOf R i j
          = pw (degSem sl M i) q * augEntry sl M i j * pw (degSem sl M j) q := by
    intro M R h
    obtain ⟨R', h1, h2, h3, h4⟩ := normalize_scalar pw addFmt sl q M
    rw [h1] at h
    obtain rfl : R' = R := Option.some.inj h
    exact ⟨h2, h4⟩
  refine ⟨?_, ?_, ?_⟩
  · intro M
    obtain ⟨R', h1, h2, h3, h4⟩ := normalize_scalar pw addFmt sl q M
    rw [normalize_adj_single, h1]
    rfl
  · intro M R h
    rw [normalize_adj_single] at h
    match hx : normalize pw addFmt sl (.scalar (some q)) M with
    | none => rw [hx] at h; cases h
    | some R' =>
      rw [hx, Option.map_some'] at h
      obtain rfl : R' = R := NormOut.one.inj (Option.some.inj h)
      exact hsing M R' hx
  · intro mats outs i d dO h2 h hi i2 j2 hi2 hj2
    have hrep : repeatRate (α := α) (.scalar (some q)) mats.length
        = some (List.replicate mats.length (some q)) := rfl
    obtain ⟨hlen, helem⟩ := normalize_adj_batch_elem pw addFmt sl _ mats _ outs
      (by omega) hrep h
    have hth := helem i hi d dO
    rw [getD_replicate _ _ _ _ hi] at hth
    exact (hsing _ _ hth).2 i2 j2 hi2 hj2

theorem claim1_witness :
    (normalize_adj pwW afW [AdjMat.dense 2 [[0, (2:ℤ)], [2, 0]]]
        (.scalar (some 3)) 1).isSome = true ∧
    entryOf (AdjMat.dense 2 [[(9:ℤ), 18], [18, 9]]) 0 1
      = pwW (degSem 1 (AdjMat.dense 2 [[0, (2:ℤ)], [2, 0]]) 0) 3
        * augEntry 1 (AdjMat.dense 2 [[0, (2:ℤ)], [2, 0]]) 0 1
        * pwW (degSem 1 (AdjMat.dense 2 [[0, (2:ℤ)], [2, 0]]) 1) 3 :=
  ⟨(claim1_entrywise_scaling pwW afW 1 3).1 _,
    ((claim1_entrywise_scaling pwW afW 1 3).2.1 _
        (AdjMat.dense 2 [[(9:ℤ), 18], [18, 9]]) (by decide)).2 0 1
      (by decide) (by decide)⟩

/-- Claim C5: for a semantically symmetric input and a finite scalar rate,
the output of normalize_adj is symmetric, in either representation. -/
theorem claim5_symmetry_preserved (pw : α → α → α) (addFmt : SpFmt → SpFmt)
    (sl q : α) (M : AdjMat α)
    (hsym : ∀ i j, i < dimOf M → j < dimOf M → entryOf M i j = entryOf M j i) :
    (normalize_adj pw addFmt [M] (.scalar (some q)) sl).isSome = true ∧
    ∀ R, normalize_adj pw addFmt [M] (.scalar (some q)) sl = some (.one R) →
      ∀ i j, i < dimOf M → j < dimOf M → entryOf R i j = entryOf R j i := by
  obtain ⟨R', h1, h2, h3, h4⟩ := normalize_scalar pw addFmt sl q M
  refine ⟨by rw [normalize_adj_single, h1]; rfl, ?_⟩
  intro R h i j hi hj
  rw [normalize_adj_single, h1, Option.map_some'] at h
  obtain rfl : R' = R := NormOut.one.inj (Option.some.inj h)
  rw [h4 i j hi hj, h4 j i hj hi]
  have haug : augEntry sl M i j = augEntry sl M j i := by
    rw [augEntry, augEntry, hsym i j hi hj]
    by_cases hij : i = j
    · subst hij; rfl
    · rw [if_neg hij, if_neg (fun hh => hij hh.symm)]
  rw [haug]
  ring

theorem claim5_witness :
    (normalize_adj pwW afW [AdjMat.sparse ⟨2, .coo, [(0, 1, (2:ℤ)), (1, 0, 2)]⟩]
        (.scalar (some 3)) 1).isSome = true ∧
    entryOf (AdjMat.sparse
        ⟨2, .csr, [(0, 0, (9:ℤ)), (0, 1, 18), (1, 0, 18), (1, 1, 9)]⟩) 0 1
      = entryOf (AdjMat.sparse
        ⟨2, .csr, [(0, 0, (9:ℤ)), (0, 1, 18), (1, 0, 18), (1, 1, 9)]⟩) 1 0 := by
  have hsym : ∀ i j,
      i < dimOf (AdjMat.sparse ⟨2, .coo, [(0, 1, (2:ℤ)), (1, 0, 2)]⟩) →
      j < dimOf (AdjMat.sparse ⟨2, .coo, [(0, 1, (2:ℤ)), (1, 0, 2)]⟩) →
      entryOf (AdjMat.sparse ⟨2, .coo, [(0, 1, (2:ℤ)), (1, 0, 2)]⟩) i j
        = entryOf (AdjMat.sparse ⟨2, .coo, [(0, 1, (2:ℤ)), (1, 0, 2)]⟩) j i := by
    intro i j hi hj
    have h2i : i < 2 := hi
    have h2j : j < 2 := hj
    interval_cases i <;> interval_cases j <;> rfl
  refine ⟨(claim5_symmetry_preserved pwW afW 1 3 _ hsym).1, ?_⟩
  exact (claim5_symmetry_preserved pwW afW 1 3 _ hsym).2
    (AdjMat.sparse ⟨2, .csr, [(0, 0, (9:ℤ)), (0, 1, 18), (1, 0, 18), (1, 1, 9)]⟩)
    (by decide) 0 1 (by decide) (by decide)

/-- Claim C10: a single-matrix call performs no rate broadcasting — the
rate argument is handed to the per-matrix normalization verbatim — so a
length-1 sequence behaves like its scalar, a length-n sequence supplies
one exponent per node in degree ** rate, and any other sequence length on
a matrix with at least two nodes fails through the numpy broadcast rules
(no explicit length check). -/
theorem claim10_single_no_broadcast (pw : α → α → α) (addFmt : SpFmt → SpFmt)
    (sl : α) :
    (∀ (M : AdjMat α) (r : Rate α),
        normalize_adj pw addFmt [M] r sl
          = (normalize pw addFmt sl r M).map .one) ∧
    (∀ (M : AdjMat α) (q : α),
        normalize pw addFmt sl (.seq [some q]) M
          = normalize pw addFmt sl (.scalar (some q)) M) ∧
    (∀ (M : AdjMat α) (qs : List α) (R : AdjMat α), qs.length = dimOf M →
        normalize_adj pw addFmt [M] (.seq (qs.map some)) sl = some (.one R) →
        ∀ i j, i < dimOf M → j < dimOf M →
          entryOf R i j
            = pw (degSem sl M i) (qs.getD i 0) * augEntry sl M i j
              * pw (degSem sl M j) (qs.getD j 0)) ∧
    (∀ (M : AdjMat α) (qs : List α), 2 ≤ dimOf M → qs.length ≠ 1 →
        qs.length ≠ dimOf M →
        normalize_adj pw addFmt [M] (.seq (qs.map some)) sl = none) := by
  refine ⟨fun M r => rfl, fun M q => rfl, ?_, ?_⟩
  · intro M qs R hql h i j hi hj
    have hq : ratesOf (α := α) (.seq (qs.map some)) = some qs :=
      ratesOf_seq_map_some qs
    have hb : bcastPow pw (degListOf addFmt sl M) qs
        = some (List.zipWith pw (degListOf addFmt sl M) qs) :=
      bcastPow_eq_length pw _ _ (by rw [degListOf_length, hql])
    have hl : (List.zipWith pw (degListOf addFmt sl M) qs).length = dimOf M := by
      rw [List.length_zipWith, degListOf_length, hql, Nat.min_self]
    obtain ⟨R', h1, h2, h3, h4⟩ := normalize_core pw addFmt sl
      (.seq (qs.map some)) M qs _ rfl hq hb hl
    rw [normalize_adj_single, h1, Option.map_some'] at h
    obtain rfl : R' = R := NormOut.one.inj (Option.some.inj h)
    rw [h4 i j hi hj,
      getD_zipWith pw _ qs i 0 0 0 (by rw [degListOf_length]; exact hi)
        (by rw [hql]; exact hi),
      getD_zipWith pw _ qs j 0 0 0 (by rw [degListOf_length]; exact hj)
        (by rw [hql]; exact hj),
      degListOf_getD addFmt sl M hi, degListOf_getD addFmt sl M hj]
  · intro M qs hdim hq1 hqn
    have hq : ratesOf (α := α) (.seq (qs.map some)) = some qs :=
      ratesOf_seq_map_some qs
    have hb : bcastPow pw (degListOf addFmt sl M) qs = none :=
      bcastPow_mismatch pw _ _
        (by rw [degListOf_length]; exact hqn) hq1
        (by rw [degListOf_length]; omega)
    have hnone : normalize pw addFmt sl (.seq (qs.map some)) M = none := by
      cases M with
      | dense n rows =>
        rw [normalize]
        simp only [Rate.rIsNone, Bool.false_eq_true, if_false]
        rw [hq, Option.some_bind]
        rw [degListOf] at hb
        rw [hb, Option.none_bind]
      | sparse s =>
        rw [normalize]
        simp only [Rate.rIsNone, Bool.false_eq_true, if_false]
        rw [hq, Option.some_bind]
        rw [degListOf] at hb
        rw [hb, Option.none_bind]
    rw [normalize_adj_single, hnone]
    rfl

theorem claim10_witness :
    normalize pwW afW 1 (.seq [some (4:ℤ)]) (AdjMat.dense 2 [[0, 2], [2, 0]])
      = normalize pwW afW 1 (.scalar (some 4)) (AdjMat.dense 2 [[0, 2], [2, 0]]) ∧
    entryOf (AdjMat.dense 2 [[(9:ℤ), 18], [18, 9]]) 0 1
      = pwW (degSem 1 (AdjMat.dense 2 [[0, (2:ℤ)], [2, 0]]) 0) ([5, 9].getD 0 0)
        * augEntry 1 (AdjMat.dense 2 [[0, (2:ℤ)], [2, 0]]) 0 1
        * pwW (degSem 1 (AdjMat.dense 2 [[0, (2:ℤ)], [2, 0]]) 1) ([5, 9].getD 1 0) ∧
    normalize_adj pwW afW [AdjMat.dense 2 [[0, (2:ℤ)], [2, 0]]]
        (.seq ([5, 6, 7].map some)) 1 = none :=
  ⟨(claim10_single_no_broadcast pwW afW 1).2.1 (AdjMat.dense 2 [[0, 2], [2, 0]]) 4,
    (claim10_single_no_broadcast pwW afW 1).2.2.1 (AdjMat.dense 2 [[0, (2:ℤ)], [2, 0]])
      [5, 9] (AdjMat.dense 2 [[(9:ℤ), 18], [18, 9]]) (by decide) (by decide)
      0 1 (by decide) (by decide),
    (claim10_single_no_broadcast pwW afW 1).2.2.2
      (AdjMat.dense 2 [[0, (2:ℤ)], [2, 0]]) [5, 6, 7]
      (by decide) (by decide) (by decide)⟩

section FloatLevelLemmas

variable {κ : Type} [LinearOrderedCommRing κ]

theorem FV.mul_not_finite_left (x y : FV κ) (hx : x.finite = false) :
    (x.mul y).finite = false := by
  cases x with
  | fin a => simp [FV.finite] at hx
  | pinf => cases y <;> simp only [FV.mul, FV.finite] <;> (try split_ifs) <;> rfl
  | ninf => cases y <;> simp only [FV.mul, FV.finite] <;> (try split_ifs) <;> rfl
  | nan => cases y <;> rfl

theorem FV.pinf_mul_not_finite (y : FV κ) :
    ((FV.pinf (κ := κ)).mul y).finite = false :=
  FV.mul_not_finite_left _ y rfl

theorem FV.mul_pinf_not_finite (x : FV κ) :
    (x.mul (FV.pinf (κ := κ))).finite = false := by
  cases x with
  | fin a => simp only [FV.mul]; split_ifs <;> rfl
  | pinf => rfl
  | ninf => rfl
  | nan => rfl

theorem npowF_zero_neg (pwn : κ → κ → FV κ) (r : κ) (hr : r < 0) :
    npowF pwn r 0 = .pinf := by
  rw [npowF, if_pos rfl, if_pos hr]

end FloatLevelLemmas

/-- Counterexample to claim C7 as stated: on a sparse 1 x 1 matrix whose
only row has zero degree, with selfloop 0 and rate -1, the (pruned)
augmented matrix stores nothing, so the call returns an empty csr matrix:
no non-finite value is produced in any output entry even though the
degree vector contains a zero and the rate is negative. -/
theorem claim7_counterexample :
    ((-1:ℤ) < 0) ∧
    spDeg (spAug afW (0:ℤ) ⟨1, .coo, []⟩).entries 0 = 0 ∧
    normalize pwW afW 0 (.scalar (some (-1)))
        (.sparse ⟨1, .coo, ([] : List (Nat × Nat × ℤ))⟩)
      = some (.sparse ⟨1, .csr, []⟩) ∧
    spScaledFV pwnW afW 0 (-1) ⟨1, .coo, []⟩ = [] := by
  decide

/-- Claim C7 (amended): with a zero entry in the degree vector of the
augmented matrix and a negative rate, the routine does not raise — the
call always returns a result — and np.power turns the zero degree into
+inf, which makes non-finite exactly the output entries indexed by the
zero-degree node: for a dense input every entry of that row and of that
column, and for a sparse input every stored entry whose row or column is
the zero-degree index.  A sparse matrix may store no such entry at all
(for a non-negative matrix with selfloop 0 the zero-degree row and column
are absent from storage), and then no non-finite value appears — that
case is the counterexample to the original wording. -/
theorem claim7_zero_degree_permissive_amended {κ : Type}
    [LinearOrderedCommRing κ]
    (pwn : κ → κ → FV κ) (pw : κ → κ → κ) (addFmt : SpFmt → SpFmt)
    (sl r : κ) (hr : r < 0) :
    (∀ M : AdjMat κ,
      (normalize pw addFmt sl (.scalar (some r)) M).isSome = true) ∧
    (∀ (n : Nat) (rows : List (List κ)) (i0 : Nat),
      rowSumE n (denseAug sl n rows) i0 = 0 →
      ∀ j, (denseScaledFV pwn sl r n rows i0 j).finite = false ∧
        (denseScaledFV pwn sl r n rows j i0).finite = false) ∧
    (∀ (s : SpMat κ) (i0 : Nat),
      spDeg (spAug addFmt sl s).entries i0 = 0 →
      ∀ (p c : Nat) (v : FV κ), (p, c, v) ∈ spScaledFV pwn addFmt sl r s →
        (p = i0 ∨ c = i0) → v.finite = false) := by
  refine ⟨?_, ?_, ?_⟩
  · intro M
    obtain ⟨R, h1, _⟩ := normalize_scalar pw addFmt sl r M
    rw [h1]
    rfl
  · intro n rows i0 hdeg j
    constructor
    · rw [denseScaledFV, hdeg, npowF_zero_neg pwn r hr]
      exact FV.mul_not_finite_left _ _ (FV.pinf_mul_not_finite _)
    · rw [denseScaledFV, hdeg, npowF_zero_neg pwn r hr]
      exact FV.mul_pinf_not_finite _
  · intro s i0 hdeg p c v hmem hpc
    rw [spScaledFV, List.mem_map] at hmem
    obtain ⟨e, he, heq⟩ := hmem
    rw [Prod.mk.injEq, Prod.mk.injEq] at heq
    obtain ⟨hp, hcol, hv⟩ := heq
    rw [← hv]
    rcases hpc with hpi | hci
    · rw [hp, hpi, hdeg, npowF_zero_neg pwn r hr]
      exact FV.mul_not_finite_left _ _ (FV.pinf_mul_not_finite _)
    · rw [hcol, hci, hdeg, npowF_zero_neg pwn r hr]
      exact FV.mul_pinf_not_finite _

theorem claim7_witness :
    (normalize pwW afW 0 (.scalar (some (-1)))
        (.sparse ⟨2, .coo, [(1, 0, (5:ℤ))]⟩)).isSome = true ∧
    (denseScaledFV pwnW (0:ℤ) (-1) 1 [[0]] 0 0).finite = false ∧
    ((1 : Nat), (0 : Nat), FV.pinf (κ := ℤ))
      ∈ spScaledFV pwnW afW 0 (-1) ⟨2, .coo, [(1, 0, 5)]⟩ ∧
    (FV.pinf (κ := ℤ)).finite = false := by
  obtain ⟨ha, hb, hc⟩ := claim7_zero_degree_permissive_amended pwnW pwW afW
    (0:ℤ) (-1) (by decide)
  refine ⟨ha _, (hb 1 [[0]] 0 (by decide) 0).1, by decide, ?_⟩
  exact hc ⟨2, .coo, [(1, 0, 5)]⟩ 0 (by decide) 1 0 FV.pinf (by decide)
    (Or.inr rfl)

theorem getD_append_left {β : Type} (l l2 : List β) (b : Nat) (d : β)
    (h : b < l.length) : (l ++ l2).getD b d = l.getD b d := by
  rw [List.getD_eq_getElem?_getD, List.getD_eq_getElem?_getD,
    List.getElem?_append, if_pos h]

theorem getD_set_ne {β : Type} (l : List β) (t b : Nat) (x d : β)
    (h : t ≠ b) : (l.set t x).getD b d = l.getD b d := by
  rw [List.getD_eq_getElem?_getD, List.getD_eq_getElem?_getD,
    List.getElem?_set_ne h]

/-- Claim C8: in the heap model of a `normalize` call, every matrix that
existed before the call — in particular the input at address a — is
unchanged after it: the augmented matrix is a fresh allocation, and the
only in-place write (the data assignment after tocoo) hits that fresh
object or its coo view, never a pre-existing address.  The result lives at
a fresh address. -/
theorem claim8_inputs_not_mutated (pw : α → α → α) (addFmt : SpFmt → SpFmt)
    (sl : α) (r : Rate α) (h : List (AdjMat α)) (a : Nat) :
    (∀ b, b < h.length →
      (normalizeHeap pw addFmt sl r h a).1.getD b dfltMat = h.getD b dfltMat) ∧
    h.length ≤ (normalizeHeap pw addFmt sl r h a).2 := by
  constructor
  · intro b hb
    rw [normalizeHeap.eq_def]
    split
    · -- dense input
      split
      · exact getD_append_left _ _ _ _ hb
      · split
        · exact getD_append_left _ _ _ _ hb
        · rw [getD_append_left _ _ _ _ (by simp; omega),
            getD_append_left _ _ _ _ hb]
    · -- sparse input
      split
      · exact getD_append_left _ _ _ _ hb
      · split
        · exact getD_append_left _ _ _ _ hb
        · split
          · exact getD_append_left _ _ _ _ hb
          · split
            · rw [getD_append_left _ _ _ _ (by simp; omega),
                getD_set_ne _ _ _ _ _ (by omega),
                getD_append_left _ _ _ _ hb]
            · rw [getD_append_left _ _ _ _ (by simp; omega),
                getD_set_ne _ _ _ _ _ (by omega),
                getD_append_left _ _ _ _ (by simp; omega),
                getD_append_left _ _ _ _ hb]
  · rw [normalizeHeap.eq_def]
    split
    · split
      · exact Nat.le_refl _
      · split
        · exact Nat.le_refl _
        · exact Nat.le_succ _
    · split
      · exact Nat.le_refl _
      · split
        · exact Nat.le_refl _
        · split
          · exact Nat.le_refl _
          · split
            · exact Nat.le_succ _
            · exact Nat.le_add_right _ _

theorem claim8_witness :
    (normalizeHeap pwW afW 1 (.scalar (some 3))
        [AdjMat.sparse ⟨2, .coo, [(0, 1, (2:ℤ)), (1, 0, 2)]⟩] 0).1.getD 0 dfltMat
      = [AdjMat.sparse ⟨2, .coo, [(0, 1, (2:ℤ)), (1, 0, 2)]⟩].getD 0 dfltMat ∧
    1 ≤ (normalizeHeap pwW afW 1 (.scalar (some 3))
        [AdjMat.sparse ⟨2, .coo, [(0, 1, (2:ℤ)), (1, 0, 2)]⟩] 0).2 :=
  ⟨(claim8_inputs_not_mutated pwW afW 1 (.scalar (some 3))
      [AdjMat.sparse ⟨2, .coo, [(0, 1, (2:ℤ)), (1, 0, 2)]⟩] 0).1 0 (by decide),
    (claim8_inputs_not_mutated pwW afW 1 (.scalar (some 3))
      [AdjMat.sparse ⟨2, .coo, [(0, 1, (2:ℤ)), (1, 0, 2)]⟩] 0).2⟩

end NormAdj
